import Mathlib

/-!
Verification development for the callout-navigator plugin
(`src/unnamed/part_000`).  The core pipeline modelled here is:

  raw text --parseCallouts--> flat list of `Comment`
           --updateView ordering (orderComments)--> forest / flat list
           --renderCommentsRecursive (renderSeq)--> displayed card order

Strings are modelled as `List Char` (a JavaScript string is a sequence of
UTF-16 code units; every string manipulated by this plugin is ordinary
text, so a list of characters is a faithful model).  JavaScript numbers
that can be `NaN` (the result of `Date.parse`) are modelled by `JsNum`.
All definitions are executable and structurally recursive (or fueled by a
bound that is provably sufficient), so concrete runs evaluate by `decide`.
-/

/-- JavaScript number that may be `NaN`: `Date.parse` returns either a
millisecond count or `NaN`.  Arithmetic on `JsNum` propagates `NaN` and
every comparison against `NaN` is false, exactly as in JavaScript. -/
inductive JsNum where
  | nan : JsNum
  | int (v : Int) : JsNum
deriving DecidableEq

/-- Model of JavaScript subtraction `a - b` on possibly-NaN numbers. -/
def jsNumSub : JsNum → JsNum → JsNum
  | JsNum.int a, JsNum.int b => JsNum.int (a - b)
  | _, _ => JsNum.nan

/-- Model of JavaScript multiplication by the direction constant (`1` or `-1`). -/
def jsNumMulInt : JsNum → Int → JsNum
  | JsNum.int a, d => JsNum.int (a * d)
  | JsNum.nan, _ => JsNum.nan

/-- Model of the JavaScript test `x < 0`; false for `NaN`. -/
def jsNumLt0 : JsNum → Bool
  | JsNum.int a => a < 0
  | JsNum.nan => false

/-- Model of the JavaScript test `x >= 0`; false for `NaN`. -/
def jsNumGe0 : JsNum → Bool
  | JsNum.int a => 0 ≤ a
  | JsNum.nan => false

/-- Characters matched by the regex class `\s` (ASCII part; the plugin's
inputs never rely on the exotic Unicode spaces also in `\s`). -/
def isJsWs (c : Char) : Bool :=
  c == ' ' || c == '\t' || c == '\n' || c == '\r' || c == '\x0b' || c == '\x0c'

/-- Drop the leading run of `\s` characters (the regex piece `\s*`). -/
def dropWs (l : List Char) : List Char := l.dropWhile isJsWs

/-- Model of `String.prototype.trim`: strip `\s` runs from both ends. -/
def trimJs (l : List Char) : List Char :=
  ((l.dropWhile isJsWs).reverse.dropWhile isJsWs).reverse

/-- Model of `content.split('\n')` from `parseCallouts` line 355: splitting
on every newline, keeping empty segments (so `""` splits to `[""]`). -/
def splitNl : List Char → List (List Char)
  | [] => [[]]
  | c :: cs =>
    if c = '\n' then [] :: splitNl cs
    else
      match splitNl cs with
      | [] => [[c]]
      | l :: ls => (c :: l) :: ls

/-- ASCII case folding on code points: the canonicalisation used by a
case-insensitive (`i`-flag) regex match for the characters this plugin
handles.  Defined on `Nat` so that facts about it are plain arithmetic. -/
def lowerNat (n : Nat) : Nat := if 65 ≤ n ∧ n ≤ 90 then n + 32 else n

/-- Case-insensitive character comparison, as performed by the `i` flag of
the dynamically built callout regex (line 368). -/
def ciEqChar (a b : Char) : Bool := lowerNat a.toNat = lowerNat b.toNat

/-- Case-insensitive equality of two character lists. -/
def ciEqList : List Char → List Char → Bool
  | [], [] => true
  | a :: as, b :: bs => ciEqChar a b && ciEqList as bs
  | _, _ => false

/-- Model of `String.prototype.toLowerCase` on one character (ASCII range,
which covers the tags the plugin compares; line 374 `match[2].toLowerCase()`). -/
def jsLowerChar (c : Char) : Char :=
  if 'A' ≤ c ∧ c ≤ 'Z' then Char.ofNat (c.toNat + 32) else c

/-- Model of `String.prototype.toLowerCase` on a string. -/
def jsLower (l : List Char) : List Char := l.map jsLowerChar

/-- Number of `>` characters in a character list; `parseCallouts` line 373
computes the depth as `(match[1].match(/>/g) || []).length`. -/
def countGt (l : List Char) : Nat := l.countP (fun c => c == '>')

/-- Greedy parse of the regex piece `((?:\s*>)+)` at the start of a line:
returns how many `>` markers were consumed and the unconsumed remainder.
Whitespace is consumed only as part of a `\s*>` unit, exactly as the
regex's greedy matching does (trailing whitespace after the last `>` is
left for the following `\s*`).  A count of `0` means the line has no
quote prefix and the overall regex cannot match. -/
def quoteUnits : List Char → Nat × List Char
  | [] => (0, [])
  | c :: cs =>
    if isJsWs c then
      let r := quoteUnits cs
      if r.1 = 0 then (0, c :: cs) else r
    else if c = '>' then
      let r := quoteUnits cs
      (r.1 + 1, r.2)
    else (0, c :: cs)

/-- Case-insensitively match the literal tag `t` against the front of the
input; on success return the consumed slice of the input (the text that
becomes `match[2]`) and the remainder.  This is the semantics of one
escaped alternative inside `(tag1|tag2|...)` under the `i` flag. -/
def ciStrip : List Char → List Char → Option (List Char × List Char)
  | [], input => some ([], input)
  | _ :: _, [] => none
  | t :: ts, c :: cs =>
    if ciEqChar t c then (ciStrip ts cs).map (fun p => (c :: p.1, p.2)) else none

/-- The alternation `(tag1|tag2|...)\]`: regex alternatives are tried left
to right and, because everything after `\]` in the pattern always
matches, an alternative is kept exactly when the literal tag matches and
is immediately followed by `]`.  Returns the matched input slice and the
remainder after the `]`. -/
def tagAlt : List (List Char) → List Char → Option (List Char × List Char)
  | [], _ => none
  | t :: ts, input =>
    match ciStrip t input with
    | some (slice, ']' :: rest) => some (slice, rest)
    | _ => tagAlt ts input

/-- The tail of the line pattern `[-+]?\s*(.*)` after the tag's closing
bracket: an optional single fold modifier, whitespace, then the body
(group 3; `.` stops at a newline). -/
def afterTag (n : Nat) (slice r3 : List Char) :
    Option (Nat × List Char × List Char) :=
  let r4 := match r3 with
    | c :: rest => if c = '-' || c = '+' then rest else r3
    | [] => r3
  some (n, slice, (dropWs r4).takeWhile (fun c => c != '\n'))

/-- The part of the line pattern from `\[!` on: the literal bracket-bang,
the tag alternation with its closing bracket, then `afterTag`. -/
def afterQuotes (tags : List (List Char)) (n : Nat) :
    List Char → Option (Nat × List Char × List Char)
  | '[' :: '!' :: r2 =>
    match tagAlt tags r2 with
    | some (slice, r3) => afterTag n slice r3
    | none => none
  | _ => none

/-- Model of matching one line against the dynamically built regex
`^\s*((?:\s*>)+)\s*\[!(tag1|...|tagN)\][-+]?\s*(.*)` with the `i` flag
(`parseCallouts` lines 366-372).  On success returns the depth (count of
`>` in group 1), the raw tag slice (group 2) and the raw body (group 3). -/
def matchLine (tags : List (List Char)) (line : List Char) :
    Option (Nat × List Char × List Char) :=
  let q := quoteUnits line
  if q.1 = 0 then none
  else afterQuotes tags q.1 (dropWs q.2)

/-- The regex-special characters escaped by `escapeRegExp` (line 357):
the character class dot star plus question caret dollar brace-open
brace-close paren-open paren-close pipe bracket-open bracket-close
backslash. -/
def regexSpecial (c : Char) : Bool :=
  c == '.' || c == '*' || c == '+' || c == '?' || c == '^' || c == '$' ||
  c == '\x7b' || c == '\x7d' || c == '(' || c == ')' || c == '|' ||
  c == '[' || c == ']' || c == '\\'

/-- Model of `escapeRegExp` (line 357): prefix every regex-special
character with a backslash. -/
def escapeRegExp : List Char → List Char
  | [] => []
  | c :: cs =>
    if regexSpecial c then '\\' :: c :: escapeRegExp cs
    else c :: escapeRegExp cs

/-- Interpretation of a regex pattern fragment as a literal string: a
backslash followed by a special character denotes that character
literally; an unescaped special character (a metacharacter) or a
backslash escape of a non-special character (a character class) means the
fragment is not a plain literal, reported as `none`.  This is the
denotation used to state that escaping makes a tag match as literal
text. -/
def litOfEscaped : List Char → Option (List Char)
  | [] => some []
  | c :: cs =>
    if c = '\\' then
      match cs with
      | c2 :: cs2 =>
        if regexSpecial c2 then (litOfEscaped cs2).map (fun l => c2 :: l) else none
      | [] => none
    else if regexSpecial c then none
    else (litOfEscaped cs).map (fun l => c :: l)

/-- Match of the embedded timestamp shape at the current position:
an opening paren, four digits, dash, two digits, dash, two digits, one
`\s` character, two digits, colon, two digits, closing paren — the regex
`\((\d.4.-\d.2.-\d.2.\s\d.2.:\d.2.)\)` of line 379 (repetition counts
written in words: 4-2-2 then 2:2).  Returns the captured group. -/
def tsShape : List Char → Option (List Char)
  | '(' :: y1 :: y2 :: y3 :: y4 :: '-' :: m1 :: m2 :: '-' :: d1 :: d2 :: w ::
      h1 :: h2 :: ':' :: n1 :: n2 :: ')' :: _ =>
    if y1.isDigit && y2.isDigit && y3.isDigit && y4.isDigit &&
       m1.isDigit && m2.isDigit && d1.isDigit && d2.isDigit && isJsWs w &&
       h1.isDigit && h2.isDigit && n1.isDigit && n2.isDigit then
      some [y1, y2, y3, y4, '-', m1, m2, '-', d1, d2, w, h1, h2, ':', n1, n2]
    else none
  | _ => none

/-- Leftmost match of the timestamp shape inside the body, as performed by
`contentText.match(...)` (line 379). -/
def findTimestamp : List Char → Option (List Char)
  | [] => none
  | c :: cs =>
    match tsShape (c :: cs) with
    | some cap => some cap
    | none => findTimestamp cs

/-- Model of `String.prototype.replace(' ', 'T')` (line 382): replace only
the first space. -/
def replaceFirstSpace : List Char → List Char
  | [] => []
  | c :: cs => if c = ' ' then 'T' :: cs else c :: replaceFirstSpace cs

/-- Leap-year rule of the proleptic Gregorian calendar used by
ECMAScript dates. -/
def isLeap (y : Nat) : Bool := (y % 4 = 0 && y % 100 != 0) || y % 400 = 0

/-- Days in a month (1-12) of year `y`. -/
def daysInMonth (y m : Nat) : Nat :=
  if m = 2 then (if isLeap y then 29 else 28)
  else if m = 4 || m = 6 || m = 9 || m = 11 then 30
  else 31

/-- Days from the Unix epoch to the civil date `y-m-d` (Howard Hinnant's
days-from-civil algorithm, with floor division). -/
def daysFromCivil (y : Int) (m d : Nat) : Int :=
  let yAdj : Int := if m ≤ 2 then y - 1 else y
  let era : Int := Int.fdiv yAdj 400
  let yoe : Int := yAdj - era * 400
  let mp : Nat := if m > 2 then m - 3 else m + 9
  let doy : Int := ((153 * mp + 2) / 5 + d - 1 : Nat)
  let doe : Int := yoe * 365 + Int.fdiv yoe 4 - Int.fdiv yoe 100 + doy
  era * 146097 + doe - 719468

/-- Numeric value of a digit character. -/
def digitVal (c : Char) : Nat := c.toNat - 48

/-- Model of the external `Date.parse` (a V8 builtin) on the strings this
plugin can feed it: the replaced capture, which is either
`YYYY-MM-DDTHH:MM` (when the separator was a space) or the same shape
with a non-space whitespace separator.  V8 accepts the `T` form when the
fields are in range and yields `NaN` otherwise; the timezone offset of a
local-time instant is modelled as zero (a constant shift, irrelevant to
every ordering property).  Any other shape is modelled as `NaN`
(`none`). -/
def jsDateParse : List Char → Option Int
  | [y1, y2, y3, y4, '-', m1, m2, '-', d1, d2, 'T', h1, h2, ':', n1, n2] =>
    if y1.isDigit && y2.isDigit && y3.isDigit && y4.isDigit &&
       m1.isDigit && m2.isDigit && d1.isDigit && d2.isDigit &&
       h1.isDigit && h2.isDigit && n1.isDigit && n2.isDigit then
      let y := ((digitVal y1 * 10 + digitVal y2) * 10 + digitVal y3) * 10 + digitVal y4
      let mo := digitVal m1 * 10 + digitVal m2
      let d := digitVal d1 * 10 + digitVal d2
      let h := digitVal h1 * 10 + digitVal h2
      let mi := digitVal n1 * 10 + digitVal n2
      if 1 ≤ mo && mo ≤ 12 && 1 ≤ d && d ≤ daysInMonth y mo && h ≤ 23 && mi ≤ 59 then
        some (((daysFromCivil y mo d * 24 + h) * 60 + mi) * 60000)
      else none
    else none
  | _ => none

/-- One configured tracked user: a tag and its display color
(`CalloutUserConfig`). -/
structure UserConfig where
  tag : List Char
  color : List Char

/-- The annotation record (`CalloutComment`): source line, lowercased
author tag, trimmed body, optional timestamp (which the code can set to
`NaN`), quote depth, and the children populated by `buildCommentTree`. -/
structure Comment where
  lineNumber : Nat
  author : List Char
  content : List Char
  timestamp : Option JsNum
  level : Nat
  children : List Comment

/-- Build one annotation from a regex match `(levels, tag slice, raw
body)` at line index `i` (lines 373-392): the body is trimmed, an empty
body becomes `Untitled`, and the timestamp is the date-parse of the
embedded capture — note that a capture whose instant fails to parse
stores `NaN` (the code has no `isNaN` guard). -/
def mkComment (i : Nat) (m : Nat × List Char × List Char) : Comment :=
  let t := trimJs m.2.2
  let contentText := if t = [] then "Untitled".data else t
  let ts : Option JsNum :=
    match findTimestamp contentText with
    | some cap =>
      some (match jsDateParse (replaceFirstSpace cap) with
            | some v => JsNum.int v
            | none => JsNum.nan)
    | none => none
  { lineNumber := i, author := jsLower m.2.1, content := contentText,
    timestamp := ts, level := m.1, children := [] }

/-- The `lines.forEach((line, index) => ...)` loop of lines 370-394,
with `k` the index of the first remaining line. -/
def scanLines (g : Nat → List Char → Option Comment) :
    Nat → List (List Char) → List Comment
  | _, [] => []
  | i, l :: rest =>
    match g i l with
    | some c => c :: scanLines g (i + 1) rest
    | none => scanLines g (i + 1) rest

/-- Model of `parseCallouts` (lines 354-397): empty user list short
circuits to `[]`; otherwise every line is matched independently against
the tag alternation and matches become annotations carrying their line
index.  A total function: no input raises. -/
def parseCallouts (users : List UserConfig) (content : List Char) : List Comment :=
  if users.length = 0 then []
  else
    scanLines
      (fun i line => (matchLine (users.map (fun u => u.tag)) line).map (mkComment i))
      0 (splitNl content)

/-- Append a completed subtree to a parent's `children`
(`stack[stack.length - 1].children.push(comment)`, line 411). -/
def attachTo (p t : Comment) : Comment :=
  { p with children := p.children ++ [t] }

/-- The `while` loop of `buildCommentTree` (lines 404-406), fueled by the
stack length (each iteration pops one entry, so the fuel is sufficient;
a fueled definition keeps the function structurally recursive and hence
kernel-evaluable).  The stack is kept top-first.  The JavaScript code
attaches a child to its parent by mutating the aliased `children` array
at push time; the equivalent functional formulation used here attaches
each node to the entry directly below it at the moment it is popped —
between a node's push and its pop the entry below it never changes, so
this is the same parent, and children arrive in the same order.  A node
popped from the bottom of the stack is a finished root and is appended to
the tree (the JavaScript pushes roots into `tree` at arrival and lets the
alias fill in their children; the final contents coincide). -/
def popGEAux : Nat → Nat → List Comment → List Comment →
    List Comment × List Comment
  | 0, _, stack, tree => (stack, tree)
  | fuel + 1, lvl, stack, tree =>
    match stack with
    | [] => ([], tree)
    | t :: rest =>
      if lvl ≤ t.level then
        match rest with
        | [] => ([], tree ++ [t])
        | p :: rest2 => popGEAux fuel lvl (attachTo p t :: rest2) tree
      else (t :: rest, tree)

/-- Pop every stack entry whose depth is at least `lvl`. -/
def popGE (lvl : Nat) (stack tree : List Comment) :
    List Comment × List Comment :=
  popGEAux stack.length lvl stack tree

/-- One iteration of the `flatComments.forEach` loop of `buildCommentTree`
(lines 403-414): pop the non-ancestors, then push the incoming comment. -/
def btStep (acc : List Comment × List Comment) (c : Comment) :
    List Comment × List Comment :=
  let pr := popGE c.level acc.1 acc.2
  (c :: pr.1, pr.2)

/-- Model of `buildCommentTree` (lines 399-417).  After the loop, the
still-open stack entries are folded into their parents (level `0` is
`≤` every depth, so `popGE 0` empties the stack), which realises the
values the JavaScript aliases already hold at return time. -/
def buildCommentTree (l : List Comment) : List Comment :=
  let acc := l.foldl btStep ([], [])
  (popGE 0 acc.1 acc.2).2

/-- Insert `x` after every element strictly before it according to the
comparator-derived order `lt` (walk past `y` exactly when `lt y x`).
For elements the comparator ties, `x` stays after nothing and before the
tied later elements — the placement a stable sort gives. -/
def insertAfterLt (lt : Comment → Comment → Bool) (x : Comment) :
    List Comment → List Comment
  | [] => [x]
  | y :: ys => if lt y x then y :: insertAfterLt lt x ys else x :: y :: ys

/-- Model of `Array.prototype.sort(comparefn)` for a CONSISTENT
comparison function: since ES2019 the sort is then required to be stable
(every engine complies; V8 uses TimSort), so it is modelled as a stable
sort with respect to `lt a b := comparefn a b < 0`.  When the comparator
is inconsistent — the chronological comparator of this plugin returns
`NaN` whenever an annotation carries a `NaN` timestamp — the ECMAScript
spec makes the sort order implementation defined and this model does not
apply; `v8SortSmall` below models what V8 actually does on such inputs
for arrays below its merge threshold. -/
def stableSort (lt : Comment → Comment → Bool) : List Comment → List Comment
  | [] => []
  | x :: xs => insertAfterLt lt x (stableSort lt xs)

/-- The effective sort key `c.timestamp ?? 0` of lines 335 and 496. -/
def getSortValue (c : Comment) : JsNum := c.timestamp.getD (JsNum.int 0)

/-- The raw comparator value handed to `Array.prototype.sort` in
chronological mode (lines 335-337 and 496-498):
`(getSortValue a - getSortValue b) * direction` with direction `1` for
ascending and `-1` for descending.  It is `NaN` whenever either
annotation carries a `NaN` timestamp. -/
def chronoCmp (asc : Bool) (a b : Comment) : JsNum :=
  jsNumMulInt (jsNumSub (getSortValue a) (getSortValue b))
    (if asc then 1 else -1)

/-- The strict order derived from the chronological comparator:
`comparefn a b < 0`. -/
def chronoLt (asc : Bool) (a b : Comment) : Bool :=
  jsNumLt0 (chronoCmp asc a b)

/-- The chronological sort `comments.sort((a, b) => ...)`, modelled as a
stable sort — exact whenever no annotation carries a `NaN` timestamp, so
that the comparator is consistent. -/
def sortChronological (asc : Bool) (l : List Comment) : List Comment :=
  stableSort (chronoLt asc) l

/-- Run extension of V8's TimSort `CountAndMakeRun` (V8
`third_party` builtin `array-sort.tq`): keep extending while the
comparator maintains the run's direction.  A comparison that returns
`NaN` reports neither `order < 0` nor `order >= 0`, so it never breaks a
run in either direction — `NaN`-keyed elements bridge runs and can hide
an inversion of real keys inside an "ascending" run. -/
def v8ExtendRun (cmp : Comment → Comment → JsNum) (desc : Bool) :
    Comment → List Comment → List Comment × List Comment
  | _, [] => ([], [])
  | prev, x :: xs =>
    let ord := cmp x prev
    if (if desc then !jsNumGe0 ord else !jsNumLt0 ord) then
      let er := v8ExtendRun cmp desc x xs
      (x :: er.1, er.2)
    else ([], x :: xs)

/-- The binary search of V8's `BinaryInsertionSort`: probe the middle of
`[left, right)` and go left exactly when the pivot compares strictly
below the probed element; a `NaN` comparison therefore sends the search
right.  The fuel (the initial interval width) bounds the halving loop. -/
def v8InsertPos (cmp : Comment → Comment → JsNum) (pivot : Comment)
    (arr : List Comment) : Nat → Nat → Nat → Nat
  | 0, left, _ => left
  | fuel + 1, left, right =>
    if left < right then
      let mid := left + (right - left) / 2
      if jsNumLt0 (cmp pivot ((arr.get? mid).getD pivot)) then
        v8InsertPos cmp pivot arr fuel left mid
      else v8InsertPos cmp pivot arr fuel (mid + 1) right
    else left

/-- Insert an element at a given position of a list. -/
def insertAt (x : Comment) (n : Nat) (l : List Comment) : List Comment :=
  l.take n ++ x :: l.drop n

/-- The `BinaryInsertionSort` loop of V8's TimSort, extending the sorted
prefix over the remaining elements one pivot at a time. -/
def v8BinaryInsert (cmp : Comment → Comment → JsNum) :
    List Comment → List Comment → List Comment
  | acc, [] => acc
  | acc, pivot :: rest =>
    v8BinaryInsert cmp
      (insertAt pivot (v8InsertPos cmp pivot acc acc.length 0 acc.length) acc) rest

/-- Model of V8's TimSort (`ArrayTimSortImpl` of `array-sort.tq`) on
arrays shorter than the 64-element merge threshold, where
`minRunLength = length` and the whole array is one forced run: detect
the initial ascending or descending run (`CountAndMakeRun`), reverse it
if descending, then extend it over the remaining elements with
`BinaryInsertionSort`.  For a consistent comparator this agrees with
`stableSort`; with the `NaN` comparator values produced by `NaN`
timestamps it can reorder equal-key elements, because the detected run
may hide an inversion bridged by `NaN` ties and the binary probe of the
larger element then stops the search short of an equal earlier
element. -/
def v8SortSmall (cmp : Comment → Comment → JsNum) : List Comment → List Comment
  | [] => []
  | [a] => [a]
  | a :: b :: rest =>
    let desc := jsNumLt0 (cmp b a)
    let er := v8ExtendRun cmp desc b rest
    let run := a :: b :: er.1
    v8BinaryInsert cmp (if desc then run.reverse else run) er.2

/-- The chronological sort of `updateView` as V8 executes it on a short
array. -/
def v8SortChronological (asc : Bool) (l : List Comment) : List Comment :=
  v8SortSmall (chronoCmp asc) l

/-- The line-order comparator `(a, b) => a.lineNumber - b.lineNumber`
(line 344), as the derived strict order. -/
def lineLt (a b : Comment) : Bool :=
  (a.lineNumber : Int) - b.lineNumber < 0

/-- The ordering step of `updateView` (lines 333-349): chronological mode
sorts by effective timestamp and nests only when flattening is off;
line-order mode sorts by line, always nests, and reverses only the
top-level array when descending. -/
def orderComments (byTs flatten asc : Bool) (comments : List Comment) :
    List Comment :=
  if byTs then
    let sorted := sortChronological asc comments
    if flatten then sorted else buildCommentTree sorted
  else
    let sorted := stableSort lineLt comments
    let tree := buildCommentTree sorted
    if asc then tree else tree.reverse

/-- The per-node reordering of `childrenToRender` in
`renderCommentsRecursive` (lines 494-501): chronological mode re-sorts
the children by timestamp; otherwise descending line mode reverses
them. -/
def childTransform (byTs asc : Bool) (cs : List Comment) : List Comment :=
  if byTs then sortChronological asc cs
  else if asc then cs else cs.reverse

/-- A node with its `children` pointer cleared; used to speak about the
sequence of visited nodes independently of the links. -/
def forget (c : Comment) : Comment := { c with children := [] }

/-- Pre-order flattening of a forest: each node (sans its children link)
followed by the flattening of its children, then of its siblings. -/
def flatF : List Comment → List Comment
  | [] => []
  | ⟨ln, au, co, ts, lv, ch⟩ :: cs =>
    (⟨ln, au, co, ts, lv, []⟩ : Comment) :: (flatF ch ++ flatF cs)

/-- Pre-order flattening of a single tree. -/
def flatC (c : Comment) : List Comment := forget c :: flatF c.children

/-- Pre-order contents of the open stack (top-first): the bottom entries
are expanded first, since lower entries were visited earlier. -/
def stackFlat : List Comment → List Comment
  | [] => []
  | t :: rest => stackFlat rest ++ flatC t

/-- Display order of the cards produced by `renderCommentsRecursive`
(lines 429-505) below one node: the node's own card, then — inside it —
the cards of its children, reordered by `childTransform` and rendered
recursively with the same settings.  Fueled by the node count of the
subtree, which bounds its nesting depth, so the fuel is always sufficient
and the function stays kernel-evaluable. -/
def renderSeqAux : Nat → Bool → Bool → Comment → List Comment
  | 0, _, _, c => [forget c]
  | fuel + 1, byTs, asc, c =>
    forget c ::
      ((childTransform byTs asc c.children).map (renderSeqAux fuel byTs asc)).flatten

/-- Display order of the cards below one node. -/
def renderSeq (byTs asc : Bool) (c : Comment) : List Comment :=
  renderSeqAux (flatC c).length byTs asc c

/-- Display order of the whole view: `renderCommentList` passes the
ordered top-level list straight to `renderCommentsRecursive`. -/
def renderAll (byTs asc : Bool) (forest : List Comment) : List Comment :=
  (forest.map (renderSeq byTs asc)).flatten

/-- The header line built by `insertCallout` (line 86), the template
`> [!` author `]- ` author ` (` timestamp `)`: the author wrapped in the
callout marker syntax, a fold modifier, the author again and the
formatted timestamp in parentheses. -/
def insertHeader (author ts : List Char) : List Char :=
  '>' :: ' ' :: '[' :: '!' ::
    (author ++ ']' :: '-' :: ' ' :: (author ++ ' ' :: '(' :: (ts ++ [')'])))

/-- Concrete tag configuration used to instantiate theorems on concrete
inputs. -/
def usersMe : List UserConfig := [⟨"me".data, "#007AFF".data⟩]

/-- A document with one root callout holding two nested replies. -/
def docNested : List Char := "> [!me] A\n> > [!me] B\n> > [!me] C".data

/-- A document whose only callout body embeds a timestamp that matches
the digit shape but names month 99, an instant no date parser accepts. -/
def docBadTs : List Char := "> [!me] x (2024-99-01 10:00)".data

/-- A document whose only callout body has no embedded timestamp. -/
def docPlain : List Char := "> [!me] plain note".data

/-- A document with unmatched lines between two matched ones. -/
def docTwo : List Char := "x\n> [!me] a\ny\n> [!me] b".data

/-- A document whose seven callouts carry the effective timestamp keys
day-5, NaN, day-9, NaN, day-7, day-3, day-7 of January 2024 (month 99
parses to NaN): the annotations of line 4 and line 6 share the instant
2024-01-07 10:00, and the two NaN timestamps bridge an inversion inside
the initial sort run. -/
def docNanTies : List Char :=
  "> [!me] a (2024-01-05 10:00)\n> [!me] b (2024-99-01 10:00)\n".data ++
  "> [!me] c (2024-01-09 10:00)\n> [!me] d (2024-99-01 10:00)\n".data ++
  "> [!me] e (2024-01-07 10:00)\n> [!me] f (2024-01-03 10:00)\n".data ++
  "> [!me] g (2024-01-07 10:00)".data

/-- A document with two callouts carrying no timestamp at all: both
effective sort keys are 0. -/
def docTiesPlain : List Char := "> [!me] a\n> [!me] b".data

/-- A depth-valid flat annotation sequence (lines 0,1,2, depths 1,2,1,
children empty). -/
def flatSample : List Comment :=
  [⟨0, "me".data, "A".data, none, 1, []⟩,
   ⟨1, "me".data, "B".data, none, 2, []⟩,
   ⟨2, "me".data, "C".data, none, 1, []⟩]

/-- A flat sequence violating the line-order precondition (line 5 before
line 3, starting at depth 2). -/
def flatUnsorted : List Comment :=
  [⟨5, "me".data, "A".data, none, 2, []⟩,
   ⟨3, "me".data, "B".data, none, 1, []⟩]

example : quoteUnits "  > > x".data = (2, " x".data) := by decide
example : matchLine ["me".data] "> [!ME]- hi ".data = some (1, "ME".data, "hi ".data) := by decide
example : matchLine ["me".data] "x [!me] hi".data = none := by decide
example : (parseCallouts [⟨"me".data, [] ⟩] "> [!me] a (2024-01-02 03:04)".data).map
    (fun c => c.timestamp) = [some (JsNum.int 1704164640000)] := by decide

/-! Helper lemmas about characters and lists. -/

theorem ws_not_gt (c : Char) (h : isJsWs c = true) : (c == '>') = false := by
  simp only [isJsWs, Bool.or_eq_true, beq_iff_eq] at h
  rcases h with ((((rfl | rfl) | rfl) | rfl) | rfl) | rfl <;> rfl

theorem charToNat_inj (a b : Char) (h : a.toNat = b.toNat) : a = b := by
  rw [← Char.ofNat_toNat a, ← Char.ofNat_toNat b, h]

theorem lowerNat_eq_of_nonletter (m : Nat) (b : Char)
    (h1 : ¬(65 ≤ m ∧ m ≤ 90)) (h2 : ¬(97 ≤ m ∧ m ≤ 122))
    (h : lowerNat m = lowerNat b.toNat) : b.toNat = m := by
  unfold lowerNat at h
  rw [if_neg h1] at h
  split_ifs at h with hb
  · omega
  · omega

theorem ciEqChar_special (a b : Char) (h : ciEqChar a b = true)
    (hs : regexSpecial a = true) : b = a := by
  have hn : lowerNat a.toNat = lowerNat b.toNat := of_decide_eq_true h
  simp only [regexSpecial, Bool.or_eq_true, beq_iff_eq] at hs
  rcases hs with ((((((((((((rfl | rfl) | rfl) | rfl) | rfl) | rfl) | rfl) | rfl) | rfl) | rfl)
      | rfl) | rfl) | rfl) | rfl <;>
    exact charToNat_inj b _ (lowerNat_eq_of_nonletter _ b (by decide) (by decide) hn)

theorem ciEqList_zip : ∀ a b : List Char, ciEqList a b = true →
    ∀ p ∈ a.zip b, ciEqChar p.1 p.2 = true := by
  intro a
  induction a with
  | nil => intro b h p hp; simp at hp
  | cons x xs ih =>
    intro b h p hp
    cases b with
    | nil => simp [ciEqList] at h
    | cons y ys =>
      simp only [ciEqList, Bool.and_eq_true] at h
      rcases List.mem_cons.mp hp with rfl | hp2
      · exact h.1
      · exact ih ys h.2 p hp2

theorem mem_takeWhile_ws : ∀ (l : List Char) (c : Char),
    c ∈ l.takeWhile isJsWs → isJsWs c = true := by
  intro l
  induction l with
  | nil => intro c h; simp at h
  | cons x xs ih =>
    intro c h
    rw [List.takeWhile_cons] at h
    by_cases hx : isJsWs x
    · rw [if_pos hx] at h
      rcases List.mem_cons.mp h with rfl | h2
      · exact hx
      · exact ih c h2
    · rw [if_neg hx] at h; simp at h

theorem append_split_unique (c : Char) :
    ∀ (a s r t : List Char), c ∉ a → c ∉ t →
      s ++ c :: r = a ++ c :: t → s = a ∧ r = t := by
  intro a
  induction a with
  | nil =>
    intro s r t hna hnt h
    cases s with
    | nil => simpa using h
    | cons x xs =>
      simp only [List.cons_append, List.nil_append, List.cons.injEq] at h
      exact absurd (h.2 ▸ List.mem_append_right xs (List.mem_cons_self c r)) hnt
  | cons y ys ih =>
    intro s r t hna hnt h
    cases s with
    | nil =>
      simp only [List.nil_append, List.cons_append, List.cons.injEq] at h
      exact absurd (h.1 ▸ List.mem_cons_self y ys) hna
    | cons x xs =>
      simp only [List.cons_append, List.cons.injEq] at h
      obtain ⟨hs, hr⟩ := ih xs r t (fun hm => hna (List.mem_cons_of_mem y hm)) hnt h.2
      exact ⟨by rw [h.1, hs], hr⟩

theorem splitNl_no_nl : ∀ l : List Char, '\n' ∉ l → splitNl l = [l] := by
  intro l
  induction l with
  | nil => intro _; rfl
  | cons c cs ih =>
    intro h
    have hc : ¬c = '\n' := fun hh => h (hh ▸ List.mem_cons_self c cs)
    have hcs : '\n' ∉ cs := fun hm => h (List.mem_cons_of_mem c hm)
    simp only [splitNl, if_neg hc, ih hcs]

/-! Extraction lemmas: the per-line scan. -/

theorem scanLines_le (g : Nat → List Char → Option Comment)
    (hg : ∀ i l c, g i l = some c → c.lineNumber = i) :
    ∀ (ls : List (List Char)) (k : Nat) (c : Comment),
      c ∈ scanLines g k ls → k ≤ c.lineNumber := by
  intro ls
  induction ls with
  | nil => intro k c h; simp [scanLines] at h
  | cons l rest ih =>
    intro k c h
    simp only [scanLines] at h
    cases hgl : g k l with
    | some c0 =>
      rw [hgl] at h
      rcases List.mem_cons.mp h with rfl | h2
      · exact Nat.le_of_eq (hg k l c hgl).symm
      · exact Nat.le_of_succ_le (ih (k + 1) c h2)
    | none =>
      rw [hgl] at h
      exact Nat.le_of_succ_le (ih (k + 1) c h)

theorem scanLines_pairwise (g : Nat → List Char → Option Comment)
    (hg : ∀ i l c, g i l = some c → c.lineNumber = i) :
    ∀ (ls : List (List Char)) (k : Nat),
      List.Pairwise (fun a b => a.lineNumber < b.lineNumber) (scanLines g k ls) := by
  intro ls
  induction ls with
  | nil => intro k; simp [scanLines]
  | cons l rest ih =>
    intro k
    simp only [scanLines]
    cases hgl : g k l with
    | some c0 =>
      refine List.Pairwise.cons ?_ (ih (k + 1))
      intro c hc
      have h1 := scanLines_le g hg rest (k + 1) c hc
      have h2 := hg k l c0 hgl
      omega
    | none => exact ih (k + 1)

theorem scanLines_mem (g : Nat → List Char → Option Comment)
    (hg : ∀ i l c, g i l = some c → c.lineNumber = i) :
    ∀ (ls : List (List Char)) (k : Nat) (c : Comment), c ∈ scanLines g k ls →
      ∃ line, ls.get? (c.lineNumber - k) = some line ∧ g c.lineNumber line = some c := by
  intro ls
  induction ls with
  | nil => intro k c h; simp [scanLines] at h
  | cons l rest ih =>
    intro k c h
    simp only [scanLines] at h
    cases hgl : g k l with
    | some c0 =>
      rw [hgl] at h
      rcases List.mem_cons.mp h with rfl | h2
      · have hk := hg k l c hgl
        refine ⟨l, ?_, ?_⟩
        · rw [hk, Nat.sub_self]; rfl
        · rw [hk]; exact hgl
      · obtain ⟨line, hl, hgc⟩ := ih (k + 1) c h2
        have hle := scanLines_le g hg rest (k + 1) c h2
        refine ⟨line, ?_, hgc⟩
        have harith : c.lineNumber - k = (c.lineNumber - (k + 1)) + 1 := by omega
        rw [harith, List.get?_cons_succ]
        exact hl
    | none =>
      rw [hgl] at h
      obtain ⟨line, hl, hgc⟩ := ih (k + 1) c h
      have hle := scanLines_le g hg rest (k + 1) c h
      refine ⟨line, ?_, hgc⟩
      have harith : c.lineNumber - k = (c.lineNumber - (k + 1)) + 1 := by omega
      rw [harith, List.get?_cons_succ]
      exact hl

theorem quoteUnits_spec : ∀ (cs : List Char) (n : Nat) (r : List Char),
    quoteUnits cs = (n, r) →
    ∃ pre, cs = pre ++ r ∧ countGt pre = n ∧ ∀ c ∈ pre, isJsWs c = true ∨ c = '>' := by
  intro cs
  induction cs with
  | nil =>
    intro n r h
    simp only [quoteUnits, Prod.mk.injEq] at h
    exact ⟨[], by simp [← h.1, ← h.2, countGt]⟩
  | cons c cs ih =>
    intro n r h
    simp only [quoteUnits] at h
    by_cases hw : isJsWs c
    · rw [if_pos hw] at h
      by_cases hz : (quoteUnits cs).1 = 0
      · rw [if_pos hz] at h
        simp only [Prod.mk.injEq] at h
        exact ⟨[], by simp [← h.1, ← h.2, countGt]⟩
      · rw [if_neg hz] at h
        obtain ⟨pre, hpre, hcnt, hmem⟩ := ih n r h
        refine ⟨c :: pre, by simp [hpre], ?_, ?_⟩
        · rw [show countGt (c :: pre) = countGt pre by
            simp [countGt, List.countP_cons, ws_not_gt c hw]]
          exact hcnt
        · intro d hd
          rcases List.mem_cons.mp hd with rfl | hd2
          · exact Or.inl hw
          · exact hmem d hd2
    · rw [if_neg hw] at h
      by_cases hgt : c = '>'
      · rw [if_pos hgt] at h
        simp only [Prod.mk.injEq] at h
        obtain ⟨pre, hpre, hcnt, hmem⟩ :=
          ih (quoteUnits cs).1 (quoteUnits cs).2 rfl
        refine ⟨c :: pre, ?_, ?_, ?_⟩
        · rw [← h.2]
          conv_lhs => rw [hpre]
          rw [List.cons_append]
        · rw [← h.1, ← hcnt]
          simp [countGt, List.countP_cons, hgt]
        · intro d hd
          rcases List.mem_cons.mp hd with rfl | hd2
          · exact Or.inr hgt
          · exact hmem d hd2
      · rw [if_neg hgt] at h
        simp only [Prod.mk.injEq] at h
        exact ⟨[], by simp [← h.1, ← h.2, countGt]⟩

theorem ciStrip_spec : ∀ (t input s r : List Char), ciStrip t input = some (s, r) →
    input = s ++ r ∧ ciEqList t s = true := by
  intro t
  induction t with
  | nil =>
    intro input s r h
    simp only [ciStrip, Option.some.injEq, Prod.mk.injEq] at h
    rw [← h.1, ← h.2]
    exact ⟨rfl, rfl⟩
  | cons x xs ih =>
    intro input s r h
    cases input with
    | nil => simp [ciStrip] at h
    | cons c cs =>
      simp only [ciStrip] at h
      by_cases hci : ciEqChar x c = true
      · rw [if_pos hci] at h
        cases hrec : ciStrip xs cs with
        | none => rw [hrec] at h; simp at h
        | some pr =>
          rw [hrec] at h
          simp only [Option.map_some', Option.some.injEq, Prod.mk.injEq] at h
          obtain ⟨hp, hpre⟩ := ih cs pr.1 pr.2 (by rw [hrec])
          rw [← h.1, ← h.2]
          constructor
          · simp [hp]
          · simp only [ciEqList, Bool.and_eq_true]
            exact ⟨hci, hpre⟩
      · rw [if_neg hci] at h; simp at h

theorem tagAlt_spec : ∀ (tags : List (List Char)) (input slice r3 : List Char),
    tagAlt tags input = some (slice, r3) →
    input = slice ++ ']' :: r3 ∧ ∃ t ∈ tags, ciEqList t slice = true := by
  intro tags
  induction tags with
  | nil => intro input slice r3 h; simp [tagAlt] at h
  | cons t ts ih =>
    intro input slice r3 h
    simp only [tagAlt] at h
    split at h
    · next s rest heq =>
      simp only [Option.some.injEq, Prod.mk.injEq] at h
      obtain ⟨hdec, hci⟩ := ciStrip_spec t input s (']' :: rest) heq
      rw [← h.1, ← h.2]
      exact ⟨hdec, t, List.mem_cons_self t ts, hci⟩
    · next =>
      obtain ⟨hdec, t2, ht2, hci⟩ := ih input slice r3 h
      exact ⟨hdec, t2, List.mem_cons_of_mem t ht2, hci⟩

theorem matchLine_spec (tags : List (List Char)) (line : List Char)
    (n : Nat) (slice body : List Char)
    (h : matchLine tags line = some (n, slice, body)) :
    1 ≤ n ∧ ∃ pre ws r3, line = (pre ++ ws) ++ '[' :: '!' :: (slice ++ ']' :: r3) ∧
      (∀ c ∈ pre, isJsWs c = true ∨ c = '>') ∧ countGt pre = n ∧
      (∀ c ∈ ws, isJsWs c = true) ∧ ∃ t ∈ tags, ciEqList t slice = true := by
  simp only [matchLine] at h
  by_cases hz : (quoteUnits line).1 = 0
  · rw [if_pos hz] at h; simp at h
  · rw [if_neg hz] at h
    rw [afterQuotes.eq_def] at h
    split at h
    · next r2 heq =>
      split at h
      · next s r3a heq2 =>
        simp only [afterTag, Option.some.injEq, Prod.mk.injEq] at h
        obtain ⟨hn, hs, _⟩ := h
        obtain ⟨pre, hpre, hcnt, hmem⟩ :=
          quoteUnits_spec line (quoteUnits line).1 (quoteUnits line).2 rfl
        obtain ⟨hdec2, t2, ht2, hci⟩ := tagAlt_spec tags r2 s r3a heq2
        have hws : (quoteUnits line).2 =
            ((quoteUnits line).2.takeWhile isJsWs) ++ ('[' :: '!' :: r2) := by
          conv_lhs => rw [← List.takeWhile_append_dropWhile (p := isJsWs) (l := (quoteUnits line).2)]
          rw [show (quoteUnits line).2.dropWhile isJsWs = dropWs (quoteUnits line).2 from rfl, heq]
        refine ⟨by omega, pre, (quoteUnits line).2.takeWhile isJsWs, r3a, ?_, hmem, by rw [hcnt, hn], ?_, ?_⟩
        · conv_lhs => rw [hpre, hws]
          rw [hdec2, ← hs]
          simp [List.append_assoc]
        · intro c hc; exact mem_takeWhile_ws _ c hc
        · rw [← hs]; exact ⟨t2, ht2, hci⟩
      · exact absurd h (by simp)
    · exact absurd h (by simp)

/-! Tree-builder lemmas: the pre-order flattening of the built forest is
exactly the flattening of the input. -/

theorem flatF_nil : flatF [] = [] := by simp [flatF]

theorem flatF_cons (c : Comment) (cs : List Comment) :
    flatF (c :: cs) = flatC c ++ flatF cs := by
  cases c
  simp [flatF, flatC, forget]

theorem flatF_append : ∀ a b : List Comment, flatF (a ++ b) = flatF a ++ flatF b := by
  intro a
  induction a with
  | nil => intro b; simp [flatF_nil]
  | cons c cs ih =>
    intro b
    rw [List.cons_append, flatF_cons, flatF_cons, ih, List.append_assoc]

theorem flatF_singleton (c : Comment) : flatF [c] = flatC c := by
  rw [flatF_cons, flatF_nil, List.append_nil]

theorem flatC_attachTo (p t : Comment) :
    flatC (attachTo p t) = flatC p ++ flatC t := by
  cases p
  simp [attachTo, flatC, forget, flatF_append, flatF_singleton]

theorem popGEAux_flat : ∀ (fuel lvl : Nat) (stack tree : List Comment),
    stack.length ≤ fuel →
    flatF (popGEAux fuel lvl stack tree).2 ++ stackFlat (popGEAux fuel lvl stack tree).1
      = flatF tree ++ stackFlat stack := by
  intro fuel
  induction fuel with
  | zero => intro lvl stack tree _; rfl
  | succ fuel ih =>
    intro lvl stack tree h
    cases stack with
    | nil => rfl
    | cons t rest =>
      by_cases hlvl : lvl ≤ t.level
      · cases rest with
        | nil =>
          simp only [popGEAux, if_pos hlvl]
          simp [stackFlat, flatF_append, flatF_singleton]
        | cons p rest2 =>
          simp only [popGEAux, if_pos hlvl]
          rw [ih lvl (attachTo p t :: rest2) tree (by simp at h ⊢; omega)]
          simp [stackFlat, flatC_attachTo, List.append_assoc]
      · simp only [popGEAux, if_neg hlvl]

theorem popGEAux_zero_stack : ∀ (fuel : Nat) (stack tree : List Comment),
    stack.length ≤ fuel → (popGEAux fuel 0 stack tree).1 = [] := by
  intro fuel
  induction fuel with
  | zero =>
    intro stack tree h
    rw [Nat.le_zero, List.length_eq_zero] at h
    subst h
    rfl
  | succ fuel ih =>
    intro stack tree h
    cases stack with
    | nil => rfl
    | cons t rest =>
      simp only [popGEAux, if_pos (Nat.zero_le t.level)]
      cases rest with
      | nil => rfl
      | cons p rest2 =>
        exact ih (attachTo p t :: rest2) tree (by simp at h ⊢; omega)

theorem foldl_btStep_flat : ∀ (l stack tree : List Comment),
    flatF (l.foldl btStep (stack, tree)).2 ++ stackFlat (l.foldl btStep (stack, tree)).1
      = (flatF tree ++ stackFlat stack) ++ flatF l := by
  intro l
  induction l with
  | nil => intro stack tree; simp [flatF_nil]
  | cons c cs ih =>
    intro stack tree
    rw [List.foldl_cons]
    rw [show btStep (stack, tree) c
        = ((btStep (stack, tree) c).1, (btStep (stack, tree) c).2) from rfl]
    rw [ih (btStep (stack, tree) c).1 (btStep (stack, tree) c).2]
    have hb1 : (btStep (stack, tree) c).1
        = c :: (popGEAux stack.length c.level stack tree).1 := rfl
    have hb2 : (btStep (stack, tree) c).2
        = (popGEAux stack.length c.level stack tree).2 := rfl
    rw [hb1, hb2]
    have hpop := popGEAux_flat stack.length c.level stack tree (Nat.le_refl _)
    rw [flatF_cons]
    simp only [stackFlat]
    simp only [← List.append_assoc]
    rw [hpop]

theorem flatF_buildCommentTree (l : List Comment) :
    flatF (buildCommentTree l) = flatF l := by
  have h1 := popGEAux_flat (l.foldl btStep ([], [])).1.length 0
    (l.foldl btStep ([], [])).1 (l.foldl btStep ([], [])).2 (Nat.le_refl _)
  have h2 := popGEAux_zero_stack (l.foldl btStep ([], [])).1.length
    (l.foldl btStep ([], [])).1 (l.foldl btStep ([], [])).2 (Nat.le_refl _)
  have h3 := foldl_btStep_flat l [] []
  rw [h2] at h1
  simp only [stackFlat, List.append_nil] at h1
  simp only [flatF_nil, stackFlat, List.append_nil, List.nil_append] at h3
  show flatF (popGEAux (l.foldl btStep ([], [])).1.length 0
    (l.foldl btStep ([], [])).1 (l.foldl btStep ([], [])).2).2 = flatF l
  rw [h1]
  exact h3

theorem flatF_children_empty : ∀ l : List Comment,
    (∀ c ∈ l, c.children = []) → flatF l = l := by
  intro l
  induction l with
  | nil => intro _; exact flatF_nil
  | cons c cs ih =>
    intro h
    rw [flatF_cons]
    have hc : c.children = [] := h c (List.mem_cons_self c cs)
    have hforget : forget c = c := by
      cases c
      simp_all [forget]
    simp only [flatC, hc, flatF_nil, hforget]
    rw [List.cons_append, List.nil_append]
    rw [ih (fun d hd => h d (List.mem_cons_of_mem c hd))]

/-! Stable-sort lemmas. -/

theorem filter_insertAfterLt (lt : Comment → Comment → Bool) (p : Comment → Bool)
    (x : Comment) (hkey : ∀ y, lt y x = true → ¬(p x = true ∧ p y = true)) :
    ∀ s, List.filter p (insertAfterLt lt x s) = List.filter p (x :: s) := by
  intro s
  induction s with
  | nil => rfl
  | cons y ys ih =>
    by_cases hlt : lt y x = true
    · rw [show insertAfterLt lt x (y :: ys) = y :: insertAfterLt lt x ys by
        simp [insertAfterLt, hlt]]
      by_cases hpy : p y = true
      · have hpx : p x = false := by
          cases hx : p x
          · rfl
          · exact absurd ⟨hx, hpy⟩ (hkey y hlt)
        simp only [List.filter_cons, hpy, hpx, if_true, if_false, Bool.false_eq_true]
        rw [ih]
        simp [List.filter_cons, hpx, hpy]
      · have hpy2 : p y = false := by cases hy : p y; rfl; exact absurd hy hpy
        simp only [List.filter_cons, hpy2, Bool.false_eq_true, if_false]
        rw [ih]
        simp [List.filter_cons, hpy2]
    · rw [show insertAfterLt lt x (y :: ys) = x :: y :: ys by
        simp [insertAfterLt, hlt]]

theorem filter_stableSort (lt : Comment → Comment → Bool) (p : Comment → Bool)
    (hkey : ∀ x y, p x = true → p y = true → lt y x = false) :
    ∀ l, List.filter p (stableSort lt l) = List.filter p l := by
  intro l
  induction l with
  | nil => rfl
  | cons x xs ih =>
    rw [show stableSort lt (x :: xs) = insertAfterLt lt x (stableSort lt xs) from rfl]
    rw [filter_insertAfterLt lt p x (fun y hlt ⟨hpx, hpy⟩ => by
      rw [hkey x y hpx hpy] at hlt; exact Bool.false_ne_true hlt)]
    simp only [List.filter_cons]
    rw [ih]

theorem chronoLt_eq_false (asc : Bool) (a b : Comment)
    (h : getSortValue a = getSortValue b) : chronoLt asc a b = false := by
  unfold chronoLt chronoCmp
  rw [h]
  cases getSortValue b with
  | nan => rfl
  | int v => simp [jsNumSub, jsNumMulInt, jsNumLt0]

/-! Header round-trip lemmas (insertCallout and the matcher). -/

theorem ciStrip_self : ∀ t X : List Char, ciStrip t (t ++ X) = some (t, X) := by
  intro t
  induction t with
  | nil => intro X; rfl
  | cons c cs ih =>
    intro X
    simp only [List.cons_append, ciStrip]
    rw [if_pos (by simp [ciEqChar])]
    rw [show cs.append X = cs ++ X from rfl, ih X]
    rfl

theorem tagAlt_header (author tail : List Char)
    (hna : ']' ∉ author) (hnt : ']' ∉ tail) :
    ∀ tags : List (List Char), author ∈ tags →
      tagAlt tags (author ++ ']' :: tail) = some (author, tail) := by
  intro tags
  induction tags with
  | nil => intro h; simp at h
  | cons t ts ih =>
    intro hmem
    by_cases hts : t = author
    · subst hts
      simp only [tagAlt, ciStrip_self]
    · have hmem2 : author ∈ ts := by
        rcases List.mem_cons.mp hmem with h | h
        · exact absurd h.symm hts
        · exact h
      cases hcs : ciStrip t (author ++ ']' :: tail) with
      | none => simp only [tagAlt, hcs]; exact ih hmem2
      | some pr =>
        obtain ⟨s, r⟩ := pr
        cases r with
        | nil => simp only [tagAlt, hcs]; exact ih hmem2
        | cons c rest =>
          by_cases hc : c = ']'
          · subst hc
            obtain ⟨hdec, _⟩ := ciStrip_spec t _ s (']' :: rest) hcs
            obtain ⟨hs, hr⟩ := append_split_unique ']' author s rest tail hna hnt hdec.symm
            simp only [tagAlt, hcs, hs, hr]
          · simp only [tagAlt, hcs]
            split
            · next heq =>
              have heq2 := Option.some.inj heq
              rw [Prod.mk.injEq] at heq2
              exact absurd (List.cons.inj heq2.2).1 hc
            · exact ih hmem2

theorem matchLine_header (tags : List (List Char)) (author ts : List Char)
    (hmem : author ∈ tags) (h1 : ']' ∉ author) (h3 : ']' ∉ ts) :
    ∃ body, matchLine tags (insertHeader author ts) = some (1, author, body) := by
  have hH : insertHeader author ts
      = '>' :: ' ' :: '[' :: '!' ::
        (author ++ ']' :: ('-' :: ' ' :: (author ++ ' ' :: '(' :: (ts ++ [')'])))) := rfl
  have hnt : ']' ∉ ('-' :: ' ' :: (author ++ ' ' :: '(' :: (ts ++ [')']))) := by
    intro hm
    rcases List.mem_cons.mp hm with h | hm2
    · exact absurd h (by decide)
    rcases List.mem_cons.mp hm2 with h | hm3
    · exact absurd h (by decide)
    rcases List.mem_append.mp hm3 with h | hm4
    · exact h1 h
    rcases List.mem_cons.mp hm4 with h | hm5
    · exact absurd h (by decide)
    rcases List.mem_cons.mp hm5 with h | hm6
    · exact absurd h (by decide)
    rcases List.mem_append.mp hm6 with h | hm7
    · exact h3 h
    · rcases List.mem_cons.mp hm7 with h | hm8
      · exact absurd h (by decide)
      · simp at hm8
  have htag := tagAlt_header author _ h1 hnt tags hmem
  refine ⟨(dropWs (' ' :: (author ++ ' ' :: '(' :: (ts ++ [')'])))).takeWhile
    (fun c => c != '\n'), ?_⟩
  rw [hH]
  have hq : quoteUnits ('>' :: ' ' :: '[' :: '!' ::
      (author ++ ']' :: ('-' :: ' ' :: (author ++ ' ' :: '(' :: (ts ++ [')'])))))
      = (1, ' ' :: '[' :: '!' ::
        (author ++ ']' :: ('-' :: ' ' :: (author ++ ' ' :: '(' :: (ts ++ [')']))))) := rfl
  simp only [matchLine, hq]
  rw [if_neg (by decide)]
  have hd : dropWs (' ' :: '[' :: '!' ::
      (author ++ ']' :: ('-' :: ' ' :: (author ++ ' ' :: '(' :: (ts ++ [')'])))))
      = '[' :: '!' ::
        (author ++ ']' :: ('-' :: ' ' :: (author ++ ' ' :: '(' :: (ts ++ [')'])))) := rfl
  rw [hd]
  simp only [afterQuotes]
  rw [htag]
  rfl

theorem parseCallouts_mem (users : List UserConfig) (content : List Char)
    (c : Comment) (hc : c ∈ parseCallouts users content) :
    ∃ line m, (splitNl content).get? c.lineNumber = some line ∧
      matchLine (users.map (fun u => u.tag)) line = some m ∧
      c = mkComment c.lineNumber m := by
  by_cases h0 : users.length = 0
  · rw [parseCallouts, if_pos h0] at hc; simp at hc
  · rw [parseCallouts, if_neg h0] at hc
    have hg : ∀ i l d, ((matchLine (users.map (fun u => u.tag)) l).map (mkComment i) = some d) →
        d.lineNumber = i := by
      intro i l d hd
      rcases Option.map_eq_some'.mp hd with ⟨m, _, hm2⟩
      rw [← hm2]; rfl
    obtain ⟨line, hl, hgc⟩ := scanLines_mem _ hg _ 0 c hc
    rcases Option.map_eq_some'.mp hgc with ⟨m, hm1, hm2⟩
    rw [Nat.sub_zero] at hl
    exact ⟨line, m, hl, hm1, hm2.symm⟩

theorem mkComment_timestamp_eq (i : Nat) (m : Nat × List Char × List Char) :
    (mkComment i m).timestamp =
      match findTimestamp (mkComment i m).content with
      | some cap => some (match jsDateParse (replaceFirstSpace cap) with
                          | some v => JsNum.int v
                          | none => JsNum.nan)
      | none => none := rfl

/-! The claims. -/

/-- C9: for every document text, extraction with an empty tag rule set
returns the empty annotation sequence; `parseCallouts` is a total
function, so no error is raised on the way. -/
theorem c9_empty_tag_set (content : List Char) : parseCallouts [] content = [] := rfl

/-- C6: extraction is order-preserving: the `lineNumber` values of the
returned sequence are strictly increasing, and each annotation's
`lineNumber` is exactly the zero-based position, in the newline split of
the document, of the line whose match produced it (no line skipped or
renumbered). -/
theorem c6_extraction_order (users : List UserConfig) (content : List Char) :
    List.Pairwise (fun a b => a.lineNumber < b.lineNumber) (parseCallouts users content) ∧
    ∀ c ∈ parseCallouts users content,
      ∃ line m, (splitNl content).get? c.lineNumber = some line ∧
        matchLine (users.map (fun u => u.tag)) line = some m ∧
        c = mkComment c.lineNumber m := by
  constructor
  · by_cases h0 : users.length = 0
    · rw [parseCallouts, if_pos h0]; simp
    · rw [parseCallouts, if_neg h0]
      exact scanLines_pairwise _ (fun i l d hd => by
        rcases Option.map_eq_some'.mp hd with ⟨m, _, hm2⟩
        rw [← hm2]; rfl) _ 0
  · exact parseCallouts_mem users content

theorem c6_extraction_order_witness :
    (parseCallouts usersMe docTwo).map (fun c => c.lineNumber) = [1, 3] ∧
    List.Pairwise (fun a b => a.lineNumber < b.lineNumber) (parseCallouts usersMe docTwo) :=
  ⟨by decide, (c6_extraction_order usersMe docTwo).1⟩

/-- C5: for every matched line, the reported depth equals the number of
`>` markers in the matched prefix — the run of whitespace and markers
that ends immediately before the bracket-bang of the tag — and is at
least 1; the count is a function of that prefix alone, so no other part
of the line influences it. -/
theorem c5_depth_is_marker_count (tags : List (List Char)) (line : List Char)
    (n : Nat) (slice body : List Char)
    (h : matchLine tags line = some (n, slice, body)) :
    1 ≤ n ∧ ∃ pre rest, line = pre ++ rest ∧
      (∀ c ∈ pre, isJsWs c = true ∨ c = '>') ∧ n = countGt pre ∧
      ∃ r2, rest = '[' :: '!' :: r2 := by
  obtain ⟨hge, pre, ws, r3, hline, hmem, hcnt, hws, _⟩ :=
    matchLine_spec tags line n slice body h
  refine ⟨hge, pre ++ ws, '[' :: '!' :: (slice ++ ']' :: r3), by rw [hline], ?_, ?_, ⟨_, rfl⟩⟩
  · intro c hc
    rcases List.mem_append.mp hc with h2 | h2
    · exact hmem c h2
    · exact Or.inl (hws c h2)
  · rw [countGt, List.countP_append]
    have hz : List.countP (fun c => c == '>') ws = 0 := by
      rw [List.countP_eq_zero]
      intro a ha
      simp [ws_not_gt a (hws a ha)]
    rw [hz, Nat.add_zero]
    exact hcnt.symm

theorem c5_depth_is_marker_count_witness :
    1 ≤ 2 ∧ ∃ pre rest, "  > > [!me] hi".data = pre ++ rest ∧
      (∀ c ∈ pre, isJsWs c = true ∨ c = '>') ∧ 2 = countGt pre ∧
      ∃ r2, rest = '[' :: '!' :: r2 :=
  c5_depth_is_marker_count ["me".data] "  > > [!me] hi".data 2 "me".data "hi".data (by decide)

/-- C8: escaping never fails and yields a literal: for every configured
tag the escaped pattern is a well-formed regex fragment whose denotation
is exactly the literal tag (so matcher construction cannot raise), and a
line matches the tag only where the tag's characters appear — up to the
ASCII case folding of the `i` flag, hence verbatim for every
regex-special character — between the bracket-bang and the closing
bracket. -/
theorem c8_special_chars_literal (tag : List Char) :
    litOfEscaped (escapeRegExp tag) = some tag ∧
    ∀ line n slice body, matchLine [tag] line = some (n, slice, body) →
      ∃ pre mid, line = pre ++ '[' :: '!' :: (slice ++ ']' :: mid) ∧
        ciEqList tag slice = true ∧
        ∀ p ∈ tag.zip slice, regexSpecial p.1 = true → p.2 = p.1 := by
  constructor
  · induction tag with
    | nil => rfl
    | cons c cs ih =>
      by_cases hsp : regexSpecial c = true
      · rw [escapeRegExp, if_pos hsp]
        show (if regexSpecial c = true
              then (litOfEscaped (escapeRegExp cs)).map (fun l => c :: l)
              else none) = some (c :: cs)
        rw [if_pos hsp, ih]
        rfl
      · have hsp2 : regexSpecial c = false := by
          cases hcc : regexSpecial c
          · rfl
          · exact absurd hcc hsp
        have hbs : ¬c = '\\' := by
          intro hcc
          rw [hcc] at hsp2
          exact absurd hsp2 (by decide)
        rw [escapeRegExp, if_neg hsp]
        rw [litOfEscaped.eq_def]
        split
        · next heq => simp at heq
        · next c2 cs2 heq =>
          obtain ⟨hc2, hcs2⟩ := List.cons.inj heq
          subst hc2
          subst hcs2
          rw [if_neg hbs, if_neg hsp, ih]
          rfl
  · intro line n slice body h
    obtain ⟨_, pre, ws, r3, hline, _, _, _, t, ht, hci⟩ :=
      matchLine_spec [tag] line n slice body h
    have ht2 : t = tag := List.mem_singleton.mp ht
    subst ht2
    refine ⟨pre ++ ws, r3, by rw [hline, List.append_assoc], hci, ?_⟩
    intro p hp hsp
    exact ciEqChar_special p.1 p.2 (ciEqList_zip t slice hci p hp) hsp

theorem c8_special_chars_literal_witness :
    litOfEscaped (escapeRegExp ".*".data) = some ".*".data ∧
    (∃ pre mid, "> [!.*] hi".data = pre ++ '[' :: '!' :: (".*".data ++ ']' :: mid) ∧
      ciEqList ".*".data ".*".data = true ∧
      ∀ p ∈ (".*".data).zip ".*".data, regexSpecial p.1 = true → p.2 = p.1) :=
  ⟨(c8_special_chars_literal ".*".data).1,
   (c8_special_chars_literal ".*".data).2 "> [!.*] hi".data 1 ".*".data "hi".data (by decide)⟩

/-- C3: Tree Builder round trip: for every flat sequence with strictly
ascending line indices, positive depths and empty children, the
pre-order flattening of the forest built by `buildCommentTree` is
exactly the original sequence — no element lost, duplicated, or
reordered. -/
theorem c3_preorder_roundtrip (l : List Comment)
    (hch : ∀ c ∈ l, c.children = [])
    (_hsort : List.Pairwise (fun a b => a.lineNumber < b.lineNumber) l)
    (_hdepth : ∀ c ∈ l, 1 ≤ c.level) :
    flatF (buildCommentTree l) = l := by
  rw [flatF_buildCommentTree, flatF_children_empty l hch]

theorem c3_preorder_roundtrip_witness :
    (∀ c ∈ flatSample, c.children = []) ∧
    List.Pairwise (fun a b => a.lineNumber < b.lineNumber) flatSample ∧
    (∀ c ∈ flatSample, 1 ≤ c.level) ∧
    flatF (buildCommentTree flatSample) = flatSample :=
  ⟨by simp [flatSample], by decide, by decide,
   c3_preorder_roundtrip flatSample (by simp [flatSample]) (by decide) (by decide)⟩

/-- C10: the Tree Builder places every input annotation exactly once in
the returned forest, even when the input violates the line-order
precondition: for every input with empty children and every predicate,
the pre-order flattening of the result has the same count as the input,
so nothing is dropped or duplicated. -/
theorem c10_no_drop_no_dup (l : List Comment)
    (hch : ∀ c ∈ l, c.children = []) (p : Comment → Bool) :
    (flatF (buildCommentTree l)).countP p = l.countP p := by
  rw [flatF_buildCommentTree, flatF_children_empty l hch]

theorem c10_no_drop_no_dup_witness :
    (∀ c ∈ flatUnsorted, c.children = []) ∧
    (flatF (buildCommentTree flatUnsorted)).countP (fun c => c.lineNumber == 3)
      = flatUnsorted.countP (fun c => c.lineNumber == 3) ∧
    flatUnsorted.countP (fun c => c.lineNumber == 3) = 1 :=
  ⟨by simp [flatUnsorted],
   c10_no_drop_no_dup flatUnsorted (by simp [flatUnsorted]) (fun c => c.lineNumber == 3),
   by decide⟩

/-- C4 amended: for every sequence whose effective timestamps are all
real numbers (no `NaN` — every embedded timestamp absent or parseable),
the chronological comparator is consistent, ES2019 guarantees a stable
sort, and indeed for every effective key (a missing timestamp counting
as the value 0) the annotations carrying that key appear in the sorted
output in exactly their input order, in both directions.  With a `NaN`
timestamp present the comparator is inconsistent, the sort order is
implementation defined, and V8's algorithm can swap equal-key
annotations (see the counterexample). -/
theorem c4_chronological_stable (asc : Bool) (l : List Comment) (k : JsNum)
    (_hnan : ∀ c ∈ l, getSortValue c ≠ JsNum.nan) :
    (sortChronological asc l).filter (fun c => getSortValue c == k)
      = l.filter (fun c => getSortValue c == k) := by
  apply filter_stableSort
  intro x y hx hy
  have hx2 : getSortValue x = k := by simpa using hx
  have hy2 : getSortValue y = k := by simpa using hy
  exact chronoLt_eq_false asc y x (by rw [hy2, hx2])

/-- C4 counterexample: this document extracts in line order 0..6, its
annotations at lines 4 and 6 have equal effective timestamps (the
instant 2024-01-07 10:00) with line 4 extracted first, yet the
chronological ascending sort as V8 executes it — the two `NaN`
timestamps of lines 1 and 3 make the comparator inconsistent — returns
the card order 0, 1, 5, 6, 2, 3, 4: the line-6 annotation is placed
before its equal-key line-4 partner, so the claimed universal stability
fails on the program. -/
theorem c4_counterexample :
    (parseCallouts usersMe docNanTies).map (fun c => c.lineNumber)
      = [0, 1, 2, 3, 4, 5, 6] ∧
    ((parseCallouts usersMe docNanTies).map (fun c => getSortValue c)).get? 4
      = ((parseCallouts usersMe docNanTies).map (fun c => getSortValue c)).get? 6 ∧
    (v8SortChronological true (parseCallouts usersMe docNanTies)).map
        (fun c => c.lineNumber) = [0, 1, 5, 6, 2, 3, 4] ∧
    ([0, 1, 5, 6, 2, 3, 4] : List Nat).indexOf 6 < ([0, 1, 5, 6, 2, 3, 4] : List Nat).indexOf 4 :=
  ⟨by decide, by decide, by decide, by decide⟩

theorem c4_chronological_stable_witness :
    (∀ c ∈ parseCallouts usersMe docTiesPlain, getSortValue c ≠ JsNum.nan) ∧
    (sortChronological true (parseCallouts usersMe docTiesPlain)).filter
        (fun c => getSortValue c == JsNum.int 0)
      = (parseCallouts usersMe docTiesPlain).filter
          (fun c => getSortValue c == JsNum.int 0) :=
  ⟨by decide,
   c4_chronological_stable true (parseCallouts usersMe docTiesPlain)
     (JsNum.int 0) (by decide)⟩

/-- C1 amended: in line-order mode the descending `updateView` result is
exactly the reverse of the ascending forest, so within `updateView` only
the top-level root order changes and every root keeps its subtree; but
the renderer's per-node child reordering, applied recursively at every
level, is the identity only when ascending and reverses each node's
children when descending — so displayed children do NOT keep ascending
document order in descending line mode. -/
theorem c1_reversal_scope (ft : Bool) (l cs : List Comment) :
    orderComments false ft false l = (orderComments false ft true l).reverse ∧
    childTransform false true cs = cs ∧
    childTransform false false cs = cs.reverse := by
  refine ⟨?_, rfl, rfl⟩
  simp [orderComments]

/-- C1 counterexample: with one root holding children at lines 1 and 2,
descending line mode displays the cards in order 0, 2, 1 — the root's
children are reversed at render time, contradicting the claim that
children always keep ascending document order (which would display
0, 1, 2). -/
theorem c1_counterexample :
    (renderAll false false (orderComments false true false
        (parseCallouts usersMe docNested))).map (fun c => c.lineNumber) = [0, 2, 1] ∧
    ([0, 2, 1] : List Nat) ≠ [0, 1, 2] := by
  constructor
  · have h : orderComments false true false (parseCallouts usersMe docNested) =
        [⟨0, "me".data, "A".data, none, 1,
          [⟨1, "me".data, "B".data, none, 2, []⟩,
           ⟨2, "me".data, "C".data, none, 2, []⟩]⟩] := by rfl
    rw [h]
    simp [renderAll, renderSeq, renderSeqAux, flatC, flatF, childTransform, forget]
  · decide

/-- C2 amended: a matched line whose body contains no substring of the
exact timestamp digit shape gets no timestamp, and under chronological
mode its effective sort value is 0 (the earliest); but a body whose
embedded pattern matches the shape while its instant fails to parse gets
`NaN` stored as its timestamp — the code has no `isNaN` guard — so its
effective sort value is `NaN`, not 0. Extraction never raises either
way. -/
theorem c2_timestamp_degradation (users : List UserConfig) (content : List Char)
    (c : Comment) (hc : c ∈ parseCallouts users content) :
    (findTimestamp c.content = none →
      c.timestamp = none ∧ getSortValue c = JsNum.int 0) ∧
    (∀ cap, findTimestamp c.content = some cap →
      jsDateParse (replaceFirstSpace cap) = none →
      c.timestamp = some JsNum.nan ∧ getSortValue c = JsNum.nan) := by
  obtain ⟨line, m, _, _, hcm⟩ := parseCallouts_mem users content c hc
  have key : c.timestamp =
      (match findTimestamp c.content with
       | some cap => some (match jsDateParse (replaceFirstSpace cap) with
                           | some v => JsNum.int v
                           | none => JsNum.nan)
       | none => none) := by
    rw [hcm]
    exact mkComment_timestamp_eq c.lineNumber m
  constructor
  · intro hnone
    have ht : c.timestamp = none := by rw [key, hnone]
    exact ⟨ht, by rw [getSortValue, ht]; rfl⟩
  · intro cap hcap hfail
    have ht : c.timestamp = some JsNum.nan := by
      rw [key, hcap]
      show some (match jsDateParse (replaceFirstSpace cap) with
                 | some v => JsNum.int v
                 | none => JsNum.nan) = some JsNum.nan
      rw [hfail]
    exact ⟨ht, by rw [getSortValue, ht]; rfl⟩

/-- C2 counterexample: the document whose body embeds
`(2024-99-01 10:00)` — matching the digit shape but naming month 99 —
yields an annotation whose timestamp IS present (it is `NaN`), refuting
the claim that a line with an unparseable embedded timestamp gets no
timestamp attached. -/
theorem c2_counterexample :
    (parseCallouts usersMe docBadTs).map (fun c => c.timestamp) = [some JsNum.nan] ∧
    some JsNum.nan ≠ (none : Option JsNum) :=
  ⟨by decide, by decide⟩

theorem c2_timestamp_degradation_witness :
    ((⟨0, "me".data, "plain note".data, none, 1, []⟩ : Comment)
        ∈ parseCallouts usersMe docPlain) ∧
    ((⟨0, "me".data, "plain note".data, none, 1, []⟩ : Comment).timestamp = none ∧
      getSortValue ⟨0, "me".data, "plain note".data, none, 1, []⟩ = JsNum.int 0) := by
  have hmem : (⟨0, "me".data, "plain note".data, none, 1, []⟩ : Comment)
      ∈ parseCallouts usersMe docPlain := by
    rw [show parseCallouts usersMe docPlain
        = [⟨0, "me".data, "plain note".data, none, 1, []⟩] from rfl]
    exact List.mem_singleton_self _
  exact ⟨hmem, (c2_timestamp_degradation usersMe docPlain _ hmem).1 (by decide)⟩

/-- C7 amended: for every author free of the closing bracket and of
newlines, and a timestamp string likewise (as `getFormattedDate`
produces), when that author is one of the configured tags the header
produced by `insertCallout` is matched and yields exactly one annotation
whose author is that author lowercased.  (With a `]` inside the author
the claim fails: an earlier configured tag can end at the embedded
bracket and win the alternation.) -/
theorem c7_insert_matches (users : List UserConfig) (author ts : List Char)
    (hmem : author ∈ users.map (fun u => u.tag))
    (h1 : ']' ∉ author) (h2 : '\n' ∉ author)
    (h3 : ']' ∉ ts) (h4 : '\n' ∉ ts) :
    (parseCallouts users (insertHeader author ts)).map (fun c => c.author)
      = [jsLower author] := by
  obtain ⟨body, hm⟩ := matchLine_header (users.map (fun u => u.tag)) author ts hmem h1 h3
  have husers : ¬users.length = 0 := by
    intro h0
    rw [List.length_eq_zero] at h0
    subst h0
    simp at hmem
  have hnl : '\n' ∉ insertHeader author ts := by
    intro hin
    simp only [insertHeader, List.mem_cons, List.mem_append, List.mem_singleton] at hin
    rcases hin with h | h | h | h | h
    · exact absurd h (by decide)
    · exact absurd h (by decide)
    · exact absurd h (by decide)
    · exact absurd h (by decide)
    rcases h with h | h
    · exact h2 h
    rcases h with h | h | h | h
    · exact absurd h (by decide)
    · exact absurd h (by decide)
    · exact absurd h (by decide)
    rcases h with h | h
    · exact h2 h
    rcases h with h | h | h
    · exact absurd h (by decide)
    · exact absurd h (by decide)
    rcases h with h | h
    · exact h4 h
    · exact absurd h (by decide)
  rw [parseCallouts, if_neg husers]
  rw [splitNl_no_nl _ hnl]
  simp only [scanLines, hm, Option.map_some']
  rfl

/-- C7 counterexample: author `a]x` is one of the configured tags, yet
the header it produces is matched by the earlier configured tag `a`
(whose match ends at the bracket embedded in the author), so the
annotation's author is `a`, not the lowercased `a]x` the claim
promises. -/
theorem c7_counterexample :
    (parseCallouts [⟨"a".data, "#007AFF".data⟩, ⟨"a]x".data, "#FF9500".data⟩]
        (insertHeader "a]x".data "2024-01-01 10:00".data)).map (fun c => c.author)
      = ["a".data] ∧ ["a".data] ≠ [jsLower "a]x".data] :=
  ⟨by decide, by decide⟩

theorem c7_insert_matches_witness :
    ("Me".data ∈ ([⟨"Me".data, "#007AFF".data⟩] : List UserConfig).map (fun u => u.tag)) ∧
    (']' ∉ "Me".data) ∧
    (parseCallouts [⟨"Me".data, "#007AFF".data⟩]
        (insertHeader "Me".data "2024-05-06 07:08".data)).map (fun c => c.author)
      = [jsLower "Me".data] :=
  ⟨by decide, by decide,
   c7_insert_matches [⟨"Me".data, "#007AFF".data⟩] "Me".data "2024-05-06 07:08".data
     (by decide) (by decide) (by decide) (by decide) (by decide)⟩
